import Mathlib

/-!
Verification of the event retention and fan-out core of the superside
event relay (`main.go`, `datatypes/notification.go`).

The Go program keeps three globals: `changes` (a `container/ring.Ring`
holding the recent event history), `ringSize` (the number of linked ring
nodes), and `listeners` (a slice of buffered channels, one per websocket
subscriber).  `processUpdates` drains the inbound channel one event at a
time, links the event into the ring, and broadcasts a projected
`Notification` to all listeners with a non-blocking send.

The ring is embedded functionally: a ring of nodes is represented by the
list of its node values read in `Next`-order starting from a designated
node (the node a retained Go pointer points at).  `[]` represents the nil
ring pointer.  Each `container/ring` method used by the source is
translated as an operation on this view.
-/

namespace Superside

set_option linter.unusedVariables false

/-- External upstream payload (`sidecar/catalog.ChangeEvent`): a record of a
service state transition.  Opaque to the core beyond pass-through; modelled
with its documented fields. -/
structure ChangeEvent where
  Service : String
  PreviousStatus : Int
  CurrentStatus : Int
  Time : Nat
deriving DecidableEq

/-- The part of `sidecar/catalog.ServicesState` the core reads: the
originating cluster name. -/
structure ClusterState where
  ClusterName : String
deriving DecidableEq

/-- `sidecar/catalog.StateChangedEvent`: the raw event POSTed to `/update`
and carried on `changesChan`. -/
structure StateChangedEvent where
  State : ClusterState
  ChangeEvent : ChangeEvent
deriving DecidableEq

/-- The externally visible notification shape (`main.go` and, identically,
`datatypes/notification.go`).  The Go field `Event` is a pointer to the
embedded change event; value semantics here. -/
structure Notification where
  Event : ChangeEvent
  ClusterName : String
deriving DecidableEq

/-- `NotificationFromEvent` (`main.go` lines 61-66; the same function body
appears in `datatypes/notification.go` lines 12-17). -/
def NotificationFromEvent (evt : StateChangedEvent) : Notification :=
  { Event := evt.ChangeEvent, ClusterName := evt.State.ClusterName }

/-- `INITIAL_RING_SIZE` (`main.go` line 22): capacity of the history ring. -/
def INITIAL_RING_SIZE : Nat := 20

/-- `BUFFER_SIZE` (`main.go` line 23): capacity of the inbound channel
`changesChan`. -/
def BUFFER_SIZE : Nat := 25

/-! ## `container/ring` operations on the list view

A non-nil ring is the list of node values in `Next`-order starting at the
node the receiver points to; `[]` is the nil `*ring.Ring`. -/

namespace Ring

variable {α : Type _}

/-- `r.Next()`: the same ring viewed from the next node (rotate left). -/
def next : List α → List α
  | [] => []
  | a :: rest => rest ++ [a]

/-- `r.Prev()`: the same ring viewed from the previous node (rotate
right). -/
def prev (l : List α) : List α :=
  match l.reverse with
  | [] => []
  | b :: t => b :: t.reverse

/-- `r.Link(s)` for a ring `s` disjoint from `r`: splices the whole ring
`s` in between `r` and `r.Next()`.  Go returns the node that was
`r.Next()` before the call; since the callers in `processUpdates` retain
exactly that node (`changes` is `prev.Next()`), the result here is the
combined ring viewed from that original next node.  A nil receiver is
never linked in the source (guarded by `ringSize`). -/
def linkNext : List α → List α → List α
  | [], s => s
  | a :: rest, s => rest ++ [a] ++ s

/-- `r.Unlink(n)`: removes `n % r.Len()` nodes starting at `r.Next()`,
leaving the receiver in place; `Unlink(0)` removes nothing.  Viewed from
the receiver. -/
def unlink (l : List α) (n : Nat) : List α :=
  match l with
  | [] => []
  | a :: rest => if n = 0 then a :: rest else a :: rest.drop (n % (rest.length + 1))

end Ring

/-! ## The global mutable state -/

/-- The history globals of `main.go`: `changes` (the ring viewed from the
retained pointer; node values are `interface{}` and may in principle be
nil, hence `Option`) and `ringSize`. -/
structure HistState where
  changes : List (Option StateChangedEvent)
  ringSize : Nat
deriving DecidableEq

/-- The zero value of the globals before any event is ingested: `changes`
is the nil ring pointer and `ringSize` is `0`. -/
def initialHist : HistState := { changes := [], ringSize := 0 }

/-- The ring-update block of `processUpdates` (`main.go` lines 217-230),
one ingested event.  Each Go statement is translated in order; a pointer
reassignment re-roots the list view at the assigned node, and
`changes.Prev().Link(newEntry)` is observed from the unchanged `changes`
pointer, which is exactly the node `Link` returns (`Ring.linkNext`). -/
def insertChange (s : HistState) (evt : StateChangedEvent) : HistState :=
  let newEntry : List (Option StateChangedEvent) := [some evt]
  if s.ringSize = 0 then
    { changes := newEntry, ringSize := s.ringSize + 1 }
  else if s.ringSize < INITIAL_RING_SIZE then
    { changes := Ring.linkNext (Ring.prev s.changes) newEntry,
      ringSize := s.ringSize + 1 }
  else
    let c1 := Ring.prev s.changes
    let c2 := Ring.unlink c1 1
    let c3 := Ring.next c2
    { changes := Ring.linkNext (Ring.prev c3) newEntry, ringSize := s.ringSize }

/-- The history component of the `processUpdates` loop: consume the queued
events one at a time, in FIFO order, applying the ring-update block to
each. -/
def runHist : HistState → List StateChangedEvent → HistState
  | s, [] => s
  | s, evt :: evts => runHist (insertChange s evt) evts

/-! ## The state query (`stateHandler`) -/

/-- The `changes.Do` traversal of `stateHandler` (`main.go` lines
102-108): visit every node in `Next`-order from the retained pointer,
appending a projected notification for every non-nil node value.  The
second component re-emits the ring exactly as traversed, recording that
the walk only reads node values. -/
def changesDo : List (Option StateChangedEvent) → List Notification × List (Option StateChangedEvent)
  | [] => ([], [])
  | o :: rest =>
    let r := changesDo rest
    (match o with
     | some evt => NotificationFromEvent evt :: r.1
     | none => r.1,
     o :: r.2)

/-- `stateHandler` (`main.go` lines 98-112) as a state-passing function:
returns the accumulated `changeHistory` slice together with the history
state it leaves behind. -/
def stateHandler (s : HistState) : List Notification × HistState :=
  let r := changesDo s.changes
  (r.1, { s with changes := r.2 })

/-- Go `json.Marshal` applied to the `changeHistory` slice, which is built
by `append` starting from its nil zero value: a nil (hence empty) slice
encodes as the JSON literal `null`, a non-empty slice as a JSON array of
its encoded elements. -/
def marshalSlice (enc : Notification → String) : List Notification → String
  | [] => "null"
  | l => "[" ++ String.intercalate "," (l.map enc) ++ "]"

/-! ## Listeners and the fan-out broadcaster -/

/-- A listener channel (`chan Notification` of capacity 100, created in
`getListener`): a Go buffered channel is a closed flag plus a FIFO buffer
of pending values. -/
structure Listener where
  closed : Bool
  buf : List Notification
deriving DecidableEq

/-- The non-blocking send of `tellListeners` (`main.go` lines 185-188),
`select { case listener <- n: default: }`, on a capacity-100 channel.
A send on a closed channel panics in Go, whatever branches the select
offers: modelled as `none`.  On an open channel with buffer space the
value is enqueued at the back; on a full one the `default` branch runs
and the value is dropped. -/
def trySend (l : Listener) (n : Notification) : Option Listener :=
  if l.closed then none
  else if l.buf.length < 100 then some { l with buf := l.buf ++ [n] }
  else some l

/-- `getListener` (`main.go` lines 168-175): make a fresh capacity-100
channel, append it to the `listeners` slice under `listenLock`, and hand
it to the caller. -/
def getListener (ls : List Listener) : Listener × List Listener :=
  let listenChan : Listener := { closed := false, buf := [] }
  (listenChan, ls ++ [listenChan])

/-- The `defer close(listenChan)` teardown of `websockHandler` (`main.go`
line 149): the channel is closed.  No statement of `websockHandler`
removes the channel from the `listeners` slice. -/
def closeChan (l : Listener) : Listener := { l with closed := true }

/-- `tellListeners` (`main.go` lines 178-190): under `listenLock`, walk
the `listeners` slice and non-blockingly send a freshly projected
notification to each.  `none` models the panic raised the first time the
loop reaches a closed channel (the panic aborts the loop and crashes the
`processUpdates` goroutine, hence the process). -/
def tellListeners (ls : List Listener) (evt : StateChangedEvent) : Option (List Listener) :=
  match ls with
  | [] => some []
  | listener :: rest =>
    match trySend listener (NotificationFromEvent evt) with
    | none => none
    | some l' => (tellListeners rest evt).map (fun tail => l' :: tail)

/-! ## The full ingestion loop -/

/-- All three globals of `main.go` together. -/
structure SysState where
  hist : HistState
  listeners : List Listener
deriving DecidableEq

/-- One iteration of the `processUpdates` loop (`main.go` lines 216-233):
the ring-update block runs first, then `tellListeners`.  `none` is the
broadcast panic. -/
def processOne (s : SysState) (evt : StateChangedEvent) : Option SysState :=
  let h := insertChange s.hist evt
  (tellListeners s.listeners evt).map (fun ls => { hist := h, listeners := ls })

/-- `processUpdates` (`main.go` lines 215-234) over a queued event list:
`for evt := range changesChan` consumes the buffered channel in strict
FIFO order, one event at a time, on the single dedicated goroutine. -/
def runSys : SysState → List StateChangedEvent → Option SysState
  | s, [] => some s
  | s, evt :: evts => (processOne s evt).bind (fun s' => runSys s' evts)

/-! ## A single subscriber interleaved with publishes

For the per-subscriber FIFO guarantee, a trace of operations on one open
listener: a publish step is the non-blocking `trySend` of `tellListeners`
restricted to this listener, and a read step is one `evt := <-listenChan`
of the owning `websockHandler` loop (a read on an empty mailbox blocks,
so it does not fire in a trace). -/
inductive SubOp where
  | publish (evt : StateChangedEvent)
  | read
deriving DecidableEq

/-- The mailbox of one subscriber together with the list of notifications
its `websockHandler` loop has received so far, in order. -/
structure SubState where
  buf : List Notification
  received : List Notification
deriving DecidableEq

/-- One trace step of a single open subscriber. -/
def subStep (s : SubState) : SubOp → SubState
  | .publish evt =>
    { s with buf := ((trySend { closed := false, buf := s.buf }
        (NotificationFromEvent evt)).getD { closed := false, buf := s.buf }).buf }
  | .read =>
    match s.buf with
    | [] => s
    | n :: rest => { buf := rest, received := s.received ++ [n] }

/-- Run a trace of publish and read steps. -/
def runSub (s : SubState) : List SubOp → SubState
  | [] => s
  | op :: ops => runSub (subStep s op) ops

/-- The notifications published over a trace, in publish order. -/
def publishedOf (ops : List SubOp) : List Notification :=
  ops.filterMap (fun op =>
    match op with
    | .publish evt => some (NotificationFromEvent evt)
    | .read => none)

/-- The ring bookkeeping invariant of `processUpdates`: `ringSize` counts
the linked nodes, and the ring never holds more than
`INITIAL_RING_SIZE` of them. -/
def RingInv (s : HistState) : Prop :=
  s.changes.length = s.ringSize ∧ s.ringSize ≤ INITIAL_RING_SIZE

instance : DecidablePred RingInv := fun s => by
  unfold RingInv; infer_instance

/-- A concrete sample event, for instantiating universally quantified
results. -/
def mkEvt (i : Nat) : StateChangedEvent :=
  { State := { ClusterName := "alpha" }
    ChangeEvent := { Service := "svc", PreviousStatus := 0, CurrentStatus := 1, Time := i } }

/-- A concrete history state at capacity. -/
def full20 : HistState :=
  { changes := (List.range INITIAL_RING_SIZE).map (fun i => some (mkEvt i))
    ringSize := INITIAL_RING_SIZE }

/-- A concrete saturated mailbox: 100 pending notifications. -/
def fullBuf : List Notification :=
  List.replicate 100 (NotificationFromEvent (mkEvt 0))

/-! ## Ring computation lemmas -/

lemma prev_concat {α : Type _} (m : List α) (b : α) :
    Ring.prev (m ++ [b]) = b :: m := by
  simp [Ring.prev, List.reverse_append]

lemma linkNext_prev_concat {α : Type _} (m : List α) (b : α) (s : List α) :
    Ring.linkNext (Ring.prev (m ++ [b])) s = (m ++ [b]) ++ s := by
  rw [prev_concat]
  simp [Ring.linkNext]

/-- The ring-update block, computed on the list view: below capacity it
appends the event at the newest end; at capacity it drops the oldest
entry and appends. -/
lemma insertChange_spec (s : HistState) (evt : StateChangedEvent)
    (hlen : s.changes.length = s.ringSize) :
    insertChange s evt =
      if s.ringSize < INITIAL_RING_SIZE then
        { changes := s.changes ++ [some evt], ringSize := s.ringSize + 1 }
      else
        { changes := s.changes.drop 1 ++ [some evt], ringSize := s.ringSize } := by
  by_cases h0 : s.ringSize = 0
  · have hnil : s.changes = [] := List.eq_nil_of_length_eq_zero (by omega)
    simp [insertChange, h0, hnil, INITIAL_RING_SIZE]
  · by_cases hlt : s.ringSize < INITIAL_RING_SIZE
    · rcases List.eq_nil_or_concat s.changes with hnil | ⟨m, b, hmb⟩
      · rw [hnil] at hlen; simp at hlen; omega
      · rw [List.concat_eq_append] at hmb
        simp only [insertChange, h0, if_false, hlt, if_true]
        rw [hmb, linkNext_prev_concat]
    · -- at capacity: the ring has ringSize ≥ INITIAL_RING_SIZE ≥ 2 nodes
      have hge : 2 ≤ s.changes.length := by
        rw [hlen]; unfold INITIAL_RING_SIZE at hlt; omega
      obtain ⟨a, t, hat⟩ : ∃ a t, s.changes = a :: t := by
        cases h : s.changes with
        | nil => rw [h] at hge; simp at hge
        | cons a t => exact ⟨a, t, rfl⟩
      obtain ⟨t0, b, htb⟩ : ∃ t0 b, t = t0 ++ [b] := by
        rcases List.eq_nil_or_concat t with hnil | ⟨t0, b, htb⟩
        · rw [hat, hnil] at hge; simp at hge
        · exact ⟨t0, b, by rw [htb, List.concat_eq_append]⟩
      simp only [insertChange, h0, if_false, hlt, if_true]
      rw [hat, htb]
      have hc1 : Ring.prev (a :: (t0 ++ [b])) = b :: a :: t0 := by
        have : a :: (t0 ++ [b]) = (a :: t0) ++ [b] := by simp
        rw [this, prev_concat]
      rw [hc1]
      have hc2 : Ring.unlink (b :: a :: t0) 1 = b :: t0 := by
        have hmod : 1 % ((a :: t0).length + 1) = 1 := Nat.mod_eq_of_lt (by simp)
        simp [Ring.unlink, hmod]
      rw [hc2]
      have hc3 : Ring.next (b :: t0) = t0 ++ [b] := rfl
      rw [hc3, linkNext_prev_concat]
      simp

/-- After any run of the ingestion loop from a state satisfying the ring
invariant, the ring view is the suffix window of the accumulated entries
that fits the capacity, and the invariant still holds. -/
lemma runHist_window :
    ∀ (evts : List StateChangedEvent) (s : HistState), RingInv s →
      (runHist s evts).changes
          = (s.changes ++ evts.map some).drop
              (s.changes.length + evts.length - INITIAL_RING_SIZE)
        ∧ RingInv (runHist s evts) := by
  intro evts
  induction evts with
  | nil =>
    intro s hs
    have hz : s.changes.length - INITIAL_RING_SIZE = 0 := by
      have := hs.1; have := hs.2; omega
    simp [runHist, hz, hs]
  | cons e rest ih =>
    intro s hs
    obtain ⟨hlen, hcap⟩ := hs
    have hspec := insertChange_spec s e hlen
    by_cases hlt : s.ringSize < INITIAL_RING_SIZE
    · rw [if_pos hlt] at hspec
      have hinv : RingInv (insertChange s e) := by
        rw [hspec]; constructor
        · simp [hlen]
        · simpa using hlt
      obtain ⟨hwin, hinv2⟩ := ih (insertChange s e) hinv
      refine ⟨?_, by simpa [runHist] using hinv2⟩
      show (runHist (insertChange s e) rest).changes = _
      rw [hwin, hspec]
      have hL : (s.changes ++ [some e]) ++ rest.map some
          = s.changes ++ (e :: rest).map some := by simp
      have hn : (s.changes ++ [some e]).length + rest.length - INITIAL_RING_SIZE
          = s.changes.length + (e :: rest).length - INITIAL_RING_SIZE := by
        simp; omega
      rw [hL, hn]
    · rw [if_neg hlt] at hspec
      have h20 : s.ringSize = INITIAL_RING_SIZE := by omega
      have hlen20 : s.changes.length = INITIAL_RING_SIZE := by omega
      obtain ⟨a, t, hat⟩ : ∃ a t, s.changes = a :: t := by
        cases h : s.changes with
        | nil => rw [h] at hlen20; simp [INITIAL_RING_SIZE] at hlen20
        | cons a t => exact ⟨a, t, rfl⟩
      have hinv : RingInv (insertChange s e) := by
        rw [hspec]; constructor
        · simp [hat] at hlen20 ⊢; omega
        · simpa using hcap
      obtain ⟨hwin, hinv2⟩ := ih (insertChange s e) hinv
      refine ⟨?_, by simpa [runHist] using hinv2⟩
      show (runHist (insertChange s e) rest).changes = _
      rw [hwin, hspec]
      have htlen : t.length + 1 = INITIAL_RING_SIZE := by
        rw [hat] at hlen20; simpa using hlen20
      have hn1 : (s.changes.drop 1 ++ [some e]).length + rest.length
            - INITIAL_RING_SIZE = rest.length := by
        rw [hat]; simp; omega
      have hn2 : s.changes.length + (e :: rest).length - INITIAL_RING_SIZE
          = rest.length + 1 := by
        rw [hat]; simp; omega
      rw [hn1, hn2, hat]
      simp [List.drop_succ_cons]

/-- The first component of the `Do` traversal is the projection of the
non-nil node values, in traversal order. -/
lemma changesDo_fst (l : List (Option StateChangedEvent)) :
    (changesDo l).1 = l.filterMap (fun o => o.map NotificationFromEvent) := by
  induction l with
  | nil => rfl
  | cons o rest ih =>
    cases o <;> simp [changesDo, ih]

/-- The `Do` traversal only reads the ring: it re-emits it unchanged. -/
lemma changesDo_snd (l : List (Option StateChangedEvent)) :
    (changesDo l).2 = l := by
  induction l with
  | nil => rfl
  | cons o rest ih => simp [changesDo, ih]

lemma filterMap_some_map (l : List StateChangedEvent) :
    (l.map some).filterMap (fun o => o.map NotificationFromEvent)
      = l.map NotificationFromEvent := by
  induction l with
  | nil => rfl
  | cons e rest ih => simp [ih]

lemma drop_map_some (n : Nat) (l : List StateChangedEvent) :
    (l.map some).drop n = (l.drop n).map some := by
  rw [List.map_drop]

lemma linkNext_single {α : Type _} (l : List α) (v : α) :
    ∃ t, Ring.linkNext l [v] = t ++ [v] := by
  cases l with
  | nil => exact ⟨[], rfl⟩
  | cons a rest => exact ⟨rest ++ [a], by simp [Ring.linkNext]⟩

/-- Whatever the prior state, the ring-update block leaves the freshly
inserted event as the newest (last traversed) entry. -/
lemma insertChange_concat (s : HistState) (evt : StateChangedEvent) :
    ∃ t, (insertChange s evt).changes = t ++ [some evt] := by
  by_cases h0 : s.ringSize = 0
  · exact ⟨[], by simp [insertChange, h0]⟩
  · by_cases hlt : s.ringSize < INITIAL_RING_SIZE
    · simpa [insertChange, h0, hlt] using
        linkNext_single (Ring.prev s.changes) (some evt)
    · simpa [insertChange, h0, hlt] using
        linkNext_single
          (Ring.prev (Ring.next (Ring.unlink (Ring.prev s.changes) 1))) (some evt)

/-- A publish step on an open subscriber mailbox is exactly the
drop-on-full conditional enqueue. -/
lemma subStep_publish (s : SubState) (evt : StateChangedEvent) :
    subStep s (.publish evt)
      = { s with buf := if s.buf.length < 100
            then s.buf ++ [NotificationFromEvent evt] else s.buf } := by
  by_cases h : s.buf.length < 100 <;> simp [subStep, trySend, h]

/-- Trace invariant: the notifications a subscriber has received,
followed by those still pending in its mailbox, form an order-preserving
selection of everything published so far. -/
lemma runSub_sublist (ops : List SubOp) :
    ∀ (s : SubState) (pubs : List Notification),
      (s.received ++ s.buf).Sublist pubs →
      ((runSub s ops).received ++ (runSub s ops).buf).Sublist
        (pubs ++ publishedOf ops) := by
  induction ops with
  | nil =>
    intro s pubs h
    simpa [runSub, publishedOf] using h
  | cons op rest ih =>
    intro s pubs h
    cases op with
    | publish evt =>
      have hrun : runSub s (SubOp.publish evt :: rest)
          = runSub (subStep s (SubOp.publish evt)) rest := rfl
      have hpub : publishedOf (SubOp.publish evt :: rest)
          = NotificationFromEvent evt :: publishedOf rest := rfl
      have hassoc : pubs ++ NotificationFromEvent evt :: publishedOf rest
          = (pubs ++ [NotificationFromEvent evt]) ++ publishedOf rest := by simp
      rw [hrun, hpub, subStep_publish, hassoc]
      by_cases hfull : s.buf.length < 100
      · rw [if_pos hfull]
        apply ih
        have hre : s.received ++ (s.buf ++ [NotificationFromEvent evt])
            = (s.received ++ s.buf) ++ [NotificationFromEvent evt] := by simp
        show (({ s with
            buf := s.buf ++ [NotificationFromEvent evt] } : SubState).received
          ++ _).Sublist _
        rw [show ({ s with
            buf := s.buf ++ [NotificationFromEvent evt] } : SubState).received
          = s.received from rfl]
        rw [hre]
        exact h.append_right [NotificationFromEvent evt]
      · rw [if_neg hfull]
        apply ih
        exact h.trans (List.sublist_append_left pubs [NotificationFromEvent evt])
    | read =>
      have hrun : runSub s (SubOp.read :: rest)
          = runSub (subStep s SubOp.read) rest := rfl
      have hpub : publishedOf (SubOp.read :: rest) = publishedOf rest := rfl
      rw [hrun, hpub]
      cases hbuf : s.buf with
      | nil =>
        have hid : subStep s SubOp.read = s := by simp [subStep, hbuf]
        rw [hid]
        exact ih s pubs h
      | cons n rest2 =>
        have hstep : subStep s SubOp.read
            = { buf := rest2, received := s.received ++ [n] } := by
          simp [subStep, hbuf]
        rw [hstep]
        apply ih
        have hre : (s.received ++ [n]) ++ rest2 = s.received ++ s.buf := by
          simp [hbuf]
        show ((s.received ++ [n]) ++ rest2).Sublist pubs
        rw [hre]
        exact h

/-! ## Claim theorems -/

/-- Claim C1: for every sequence of N events inserted into the history
buffer of capacity C = `INITIAL_RING_SIZE` = 20, a subsequent snapshot
(the `stateHandler` traversal) returns exactly the N inserted events in
insertion order, oldest first, when N ≤ C; and exactly the most recent C
events, oldest first, with the earliest N − C events absent, when
N > C. -/
theorem c1_snapshot_window (evts : List StateChangedEvent) :
    (evts.length ≤ INITIAL_RING_SIZE →
        (stateHandler (runHist initialHist evts)).1 = evts.map NotificationFromEvent)
      ∧ (INITIAL_RING_SIZE < evts.length →
          (stateHandler (runHist initialHist evts)).1
            = (evts.drop (evts.length - INITIAL_RING_SIZE)).map NotificationFromEvent) := by
  have hwin := (runHist_window evts initialHist ⟨rfl, by decide⟩).1
  simp only [show initialHist.changes = [] from rfl, List.nil_append,
    List.length_nil, Nat.zero_add, List.length_map] at hwin
  have hfst : ∀ s : HistState, (stateHandler s).1 = (changesDo s.changes).1 :=
    fun s => rfl
  constructor
  · intro hle
    have h0 : evts.length - INITIAL_RING_SIZE = 0 := Nat.sub_eq_zero_of_le hle
    rw [hfst, changesDo_fst, hwin, h0, List.drop_zero, filterMap_some_map]
  · intro hgt
    rw [hfst, changesDo_fst, hwin, drop_map_some, filterMap_some_map]

/-- Witness for C1 at two concrete inputs: 2 inserts (below capacity) and
21 inserts (one above capacity). -/
theorem c1_snapshot_window_witness :
    (stateHandler (runHist initialHist ((List.range 2).map mkEvt))).1
        = ((List.range 2).map mkEvt).map NotificationFromEvent
      ∧ (stateHandler (runHist initialHist ((List.range 21).map mkEvt))).1
        = (((List.range 21).map mkEvt).drop
              (((List.range 21).map mkEvt).length - INITIAL_RING_SIZE)).map
            NotificationFromEvent :=
  ⟨(c1_snapshot_window ((List.range 2).map mkEvt)).1 (by decide),
   (c1_snapshot_window ((List.range 21).map mkEvt)).2 (by decide)⟩

/-- Claim C7: the state query is a pure, read-only function of the buffer
state: it hands back the history state unchanged, and a second call with
no intervening insert returns an identical result. -/
theorem c7_snapshot_idempotent (s : HistState) :
    (stateHandler s).2 = s
      ∧ (stateHandler ((stateHandler s).2)).1 = (stateHandler s).1 := by
  have h2 : (stateHandler s).2 = s := by
    show { s with changes := (changesDo s.changes).2 } = s
    rw [changesDo_snd]
  exact ⟨h2, by rw [h2]⟩

/-- Claim C8: the notification projection is a pure function returning a
notification whose cluster name is the state cluster name of the event
and whose event field is the change-event payload of the event. -/
theorem c8_projection_pure (evt : StateChangedEvent) :
    (NotificationFromEvent evt).ClusterName = evt.State.ClusterName
      ∧ (NotificationFromEvent evt).Event = evt.ChangeEvent :=
  ⟨rfl, rfl⟩

/-- Claim C9: a state query before any event has been ingested traverses
the nil ring as zero entries and returns the empty history without
failing; the nil `changeHistory` slice JSON-encodes as the literal
`null`, not as an empty array. -/
theorem c9_empty_state (enc : Notification → String) :
    (stateHandler initialHist).1 = []
      ∧ marshalSlice enc (stateHandler initialHist).1 = "null" :=
  ⟨rfl, rfl⟩

/-- Claim C10: the ingestion loop preserves the capacity invariant of the
ring: occupancy equals `ringSize` and never exceeds
`INITIAL_RING_SIZE` = 20; below capacity an insert grows the occupancy by
exactly one; at capacity an insert unlinks exactly the oldest entry and
links the new one, keeping occupancy at exactly 20; hence a run from the
start holds `min N 20` entries after N inserts. -/
theorem c10_ring_capacity_invariant :
    (∀ (s : HistState) (evt : StateChangedEvent), RingInv s →
        RingInv (insertChange s evt)
          ∧ (s.ringSize < INITIAL_RING_SIZE →
              (insertChange s evt).changes.length = s.changes.length + 1)
          ∧ (s.ringSize = INITIAL_RING_SIZE →
              (insertChange s evt).changes.length = INITIAL_RING_SIZE
                ∧ (insertChange s evt).changes = s.changes.drop 1 ++ [some evt]))
      ∧ ∀ evts : List StateChangedEvent,
          (runHist initialHist evts).changes.length = min evts.length INITIAL_RING_SIZE := by
  constructor
  · intro s evt hs
    obtain ⟨hlen, hcap⟩ := hs
    have hspec := insertChange_spec s evt hlen
    by_cases hlt : s.ringSize < INITIAL_RING_SIZE
    · rw [if_pos hlt] at hspec
      refine ⟨⟨by simp [hspec, hlen], by simp [hspec]; omega⟩,
        fun _ => by simp [hspec], fun h20 => absurd h20 (by omega)⟩
    · rw [if_neg hlt] at hspec
      have h20 : s.ringSize = INITIAL_RING_SIZE := by omega
      have hpos : 0 < s.changes.length := by
        rw [hlen, h20]; decide
      refine ⟨⟨by simp [hspec]; omega, by simp [hspec]; omega⟩,
        fun h => absurd h hlt, fun _ => ⟨by simp [hspec]; omega, by rw [hspec]⟩⟩
  · intro evts
    have hwin := (runHist_window evts initialHist ⟨rfl, by decide⟩).1
    simp only [show initialHist.changes = [] from rfl, List.nil_append,
    List.length_nil, Nat.zero_add, List.length_map] at hwin
    rw [hwin, List.length_drop, List.length_map]
    omega

/-- Witness for C10: the invariant step at the empty state (growth by
one) and at a concrete full state (occupancy pinned at 20). -/
theorem c10_ring_capacity_invariant_witness :
    (insertChange initialHist (mkEvt 0)).changes.length
        = initialHist.changes.length + 1
      ∧ (insertChange full20 (mkEvt 99)).changes.length = INITIAL_RING_SIZE :=
  ⟨(c10_ring_capacity_invariant.1 initialHist (mkEvt 0) (by decide)).2.1 (by decide),
   ((c10_ring_capacity_invariant.1 full20 (mkEvt 99) (by decide)).2.2 (by decide)).1⟩

/-- Claim C2 fails on the code: `websockHandler` tears a connection down
with `defer close(listenChan)` but no statement ever removes the handle
from the `listeners` slice, so after a subscriber connection terminates
its closed channel is still registered (here: the live set still has
length 1), and the next publish reaches a send on a closed channel, which
panics (`none`) instead of skipping the subscriber. -/
theorem c2_close_then_publish_panics :
    ((getListener []).2.map closeChan).length = 1
      ∧ tellListeners ((getListener []).2.map closeChan) (mkEvt 0) = none :=
  ⟨rfl, rfl⟩

/-- Claim C3: a publish to any set of subscribers whose channels are open
(live connections) delivers the projected notification to every mailbox
with free space, silently leaves every full mailbox unchanged, affects no
other subscriber, reports no error (the result is `some`, never a panic),
and is computed by the non-blocking conditional send alone. -/
theorem c3_publish_best_effort (ls : List Listener) (evt : StateChangedEvent)
    (hopen : ∀ l ∈ ls, l.closed = false) :
    tellListeners ls evt
      = some (ls.map (fun l =>
          if l.buf.length < 100
          then { l with buf := l.buf ++ [NotificationFromEvent evt] }
          else l)) := by
  induction ls with
  | nil => rfl
  | cons l rest ih =>
    have hl : l.closed = false := hopen l (List.mem_cons_self l rest)
    have hrest := ih (fun x hx => hopen x (List.mem_cons_of_mem l hx))
    by_cases hfull : l.buf.length < 100 <;>
      simp [tellListeners, trySend, hl, hfull, hrest]

/-- Witness for C3: one empty mailbox receives the notification, one
saturated mailbox (100 pending) is left unchanged, and the publish
returns without error. -/
theorem c3_publish_best_effort_witness :
    tellListeners
        [{ closed := false, buf := [] }, { closed := false, buf := fullBuf }]
        (mkEvt 1)
      = some [{ closed := false, buf := [NotificationFromEvent (mkEvt 1)] },
          { closed := false, buf := fullBuf }] := by
  rw [c3_publish_best_effort
    [{ closed := false, buf := [] }, { closed := false, buf := fullBuf }]
    (mkEvt 1) (by decide)]
  decide

/-- Claim C4: a subscriber mailbox is FIFO: over any interleaving of
publishes and reads, the notifications the subscriber has received,
followed by those still pending, form an order-preserving selection of
the published sequence; in particular, for two notifications published in
order A then B, a subscriber receiving both receives A before B, while an
arbitrary subset may be missing. -/
theorem c4_subscriber_fifo (ops : List SubOp) :
    ((runSub { buf := [], received := [] } ops).received
        ++ (runSub { buf := [], received := [] } ops).buf).Sublist (publishedOf ops)
      ∧ (runSub { buf := [], received := [] } ops).received.Sublist (publishedOf ops) := by
  have h := runSub_sublist ops { buf := [], received := [] } [] (by simp)
  simp only [List.nil_append] at h
  exact ⟨h, (List.sublist_append_left _ _).trans h⟩

/-- Claim C5: each iteration of the ingestion loop performs the
history-buffer insert before handing the projected notification to the
broadcaster: whenever `processOne` publishes the notification of an
event, the resulting history is the post-insert one and its snapshot
already ends with exactly that notification; and the loop consumes the
queued events one at a time in strict FIFO order (running a concatenated
queue is running the first part, then the second from the reached
state). -/
theorem c5_insert_before_publish :
    (∀ (s : SysState) (evt : StateChangedEvent) (s2 : SysState),
        processOne s evt = some s2 →
          s2.hist = insertChange s.hist evt
            ∧ (stateHandler s2.hist).1.getLast? = some (NotificationFromEvent evt))
      ∧ ∀ (es1 es2 : List StateChangedEvent) (s : SysState),
          runSys s (es1 ++ es2) = (runSys s es1).bind (fun sm => runSys sm es2) := by
  constructor
  · intro s evt s2 hp
    unfold processOne at hp
    cases htell : tellListeners s.listeners evt with
    | none => rw [htell] at hp; simp at hp
    | some ls =>
      rw [htell] at hp
      have hp2 : SysState.mk (insertChange s.hist evt) ls = s2 := Option.some.inj hp
      have hhist : s2.hist = insertChange s.hist evt := by rw [← hp2]
      refine ⟨hhist, ?_⟩
      rw [hhist]
      obtain ⟨t, ht⟩ := insertChange_concat s.hist evt
      have hfst : (stateHandler (insertChange s.hist evt)).1
          = (changesDo (insertChange s.hist evt).changes).1 := rfl
      rw [hfst, changesDo_fst, ht, List.filterMap_append]
      simp
  · intro es1
    induction es1 with
    | nil => intro es2 s; simp [runSys]
    | cons e rest ih =>
      intro es2 s
      cases hpe : processOne s e with
      | none => simp [runSys, hpe]
      | some s2 => simp [runSys, hpe]; exact ih es2 s2

/-- Witness for C5: the first ingested event lands in the history, and
the snapshot of the published-against history ends with its
notification. -/
theorem c5_insert_before_publish_witness :
    ({ hist := { changes := [some (mkEvt 0)], ringSize := 1 },
        listeners := [] } : SysState).hist
        = insertChange initialHist (mkEvt 0)
      ∧ (stateHandler ({ changes := [some (mkEvt 0)], ringSize := 1 } : HistState)).1.getLast?
        = some (NotificationFromEvent (mkEvt 0)) :=
  c5_insert_before_publish.1 { hist := initialHist, listeners := [] } (mkEvt 0)
    { hist := { changes := [some (mkEvt 0)], ringSize := 1 }, listeners := [] }
    (by decide)

end Superside
